import Mathlib

/-!
Verification of the notes-app core (`src/notes_frontend/src/App.js`).

The development shallowly embeds the data model and the operations of the
application: the note record, the store operations (`updateNote`,
`handleDeleteNote`, `handleSelectNote`), the derived sorted/filtered view
(`filteredNotes` in `App` composed with the `sorted` list of `Sidebar`),
the defensive storage reader (`loadNotes`), the debounced write coalescer
(`useDebouncedCallback` wired as `debouncedSave`), and the markdown
renderer (`renderBasicMarkdown`).

Modelling conventions:
- Timestamps (`createdAt`, `updatedAt`) are ISO-8601 strings produced by
  `new Date().toISOString()` and compared through `new Date(x)`; the ISO
  encoding is order-isomorphic to the underlying epoch milliseconds, so
  they are embedded as `Nat`.
- JavaScript `Array.prototype.sort` (ES2019+) is specified to be a stable
  sort; with the comparator `(a, b) => b.updatedAt - a.updatedAt` the
  result is the unique permutation that is ordered by `updatedAt`
  descending and keeps ties in original order.  `List.insertionSort` with
  the total preorder `updatedDescOrder` realizes exactly that contract
  (stability is proved below as `jsStableSort_filter_eq_self` /
  `jsStableSort_stable`).
- `JSON.parse` belongs to the host runtime, not to the repository; it is
  modelled as an arbitrary function `String → Except String JValue`
  passed as a parameter (an exception becomes an `Except.error`).
- `setTimeout` / `clearTimeout` are modelled by a timed trace semantics:
  a list of `(time, snapshot)` schedule calls is folded over an optional
  pending `(deadline, snapshot)` timer.
-/

namespace NotesApp

/-- The note record created by `handleNewNote` (App.js lines 401-413):
`{ id, title, content, createdAt, updatedAt, pinned, color }`. -/
structure Note where
  id : String
  title : String
  content : String
  createdAt : Nat
  updatedAt : Nat
  pinned : Bool
  color : Option String
deriving DecidableEq, Repr

/-- A partial update payload: each field is optionally present.  This models
the spec's "partial payload" `p`; the JS object spread `{ ...n, ...p }`
takes a present payload field and otherwise keeps the field of `n`. -/
structure PartialNote where
  id : Option String := none
  title : Option String := none
  content : Option String := none
  createdAt : Option Nat := none
  updatedAt : Option Nat := none
  pinned : Option Bool := none
  color : Option (Option String) := none
deriving DecidableEq, Repr

/-- JS object spread `{ ...n, ...p }`: payload fields win where present. -/
def spreadMerge (n : Note) (p : PartialNote) : Note where
  id := p.id.getD n.id
  title := p.title.getD n.title
  content := p.content.getD n.content
  createdAt := p.createdAt.getD n.createdAt
  updatedAt := p.updatedAt.getD n.updatedAt
  pinned := p.pinned.getD n.pinned
  color := p.color.getD n.color

/-- `updateNote` (App.js lines 395-399):
`setNotes(prev => prev.map(n => (n.id === next.id ? { ...next, updatedAt: new Date().toISOString() } : n)))`.
It receives the whole replacement object `next` (call sites build it by
spreading the current note), and `now` is the freshly taken timestamp. -/
def updateNote (next : Note) (now : Nat) (notes : List Note) : List Note :=
  notes.map fun n => if n.id = next.id then { next with updatedAt := now } else n

/-- The relevant `App` state: the collection and the active-note pointer
(`notes` / `activeId` useState hooks, App.js lines 347-348).  `activeId`
is `null` or an id string. -/
structure AppState where
  notes : List Note
  activeId : Option String
deriving DecidableEq, Repr

/-- `activeNote` (App.js line 393): `notes.find(n => n.id === activeId) || null`. -/
def activeNote (s : AppState) : Option Note :=
  match s.activeId with
  | none => none
  | some aid => s.notes.find? fun n => n.id == aid

/-- `handleSelectNote` (App.js line 431): `(id) => setActiveId(id)`.
The pointer is set unconditionally; there is no membership check. -/
def handleSelectNote (s : AppState) (id : String) : AppState :=
  { s with activeId := some id }

/-- The order imposed by the comparator `(a, b) => new Date(b.updatedAt) - new Date(a.updatedAt)`
(App.js line 159): `a` may stay before `b` exactly when `cmp a b ≤ 0`,
i.e. `b.updatedAt ≤ a.updatedAt`. -/
def updatedDescOrder (a b : Note) : Prop := b.updatedAt ≤ a.updatedAt

instance : DecidableRel updatedDescOrder :=
  fun a b => inferInstanceAs (Decidable (b.updatedAt ≤ a.updatedAt))

instance : IsTotal Note updatedDescOrder :=
  ⟨fun a b => Nat.le_total b.updatedAt a.updatedAt⟩

instance : IsTrans Note updatedDescOrder :=
  ⟨fun _ _ _ h₁ h₂ => Nat.le_trans h₂ h₁⟩

/-- JS `array.sort(sortByUpdated)`: a stable sort under the descending
comparator.  ES2019 `Array.prototype.sort` is stable, which together with
sortedness under a total consistent comparator determines the output
uniquely; `List.insertionSort` on the total preorder `updatedDescOrder`
is exactly that function. -/
def jsStableSortByUpdatedDesc (l : List Note) : List Note :=
  List.insertionSort updatedDescOrder l

/-- The `sorted` list of `Sidebar` (App.js lines 156-163): partition into
pinned / others, stable-sort each by `updatedAt` descending, concatenate
pinned first. -/
def sidebarSorted (notes : List Note) : List Note :=
  jsStableSortByUpdatedDesc (notes.filter fun n => n.pinned) ++
    jsStableSortByUpdatedDesc (notes.filter fun n => !n.pinned)

/-- JS `\s`-class used by `trim()` and by the regex whitespace tests. -/
def isTrimSpace (c : Char) : Bool :=
  ([0x09, 0x0A, 0x0B, 0x0C, 0x0D, 0x20, 0xA0, 0x1680, 0x2000, 0x2001, 0x2002,
    0x2003, 0x2004, 0x2005, 0x2006, 0x2007, 0x2008, 0x2009, 0x200A, 0x2028,
    0x2029, 0x202F, 0x205F, 0x3000, 0xFEFF] : List Nat).contains c.toNat

/-- `s.trim()`: remove leading and trailing whitespace. -/
def jsTrim (l : List Char) : List Char :=
  ((l.dropWhile isTrimSpace).reverse.dropWhile isTrimSpace).reverse

/-- `s.toLowerCase()`: character-wise lower-casing. -/
def jsLower (l : List Char) : List Char :=
  l.map Char.toLower

/-- The per-note search predicate of `filteredNotes` (App.js lines 386-390):
`t.includes(q) || c.includes(q)` on the lower-cased title and content.
`(n.title || '')` is the identity on actual strings (for the empty string
both sides are `''`), so it is dropped.  `includes` is substring
containment, embedded as contiguous-sublist containment (`<:+:`) on the
character lists. -/
def noteMatches (q : List Char) (n : Note) : Bool :=
  decide (q <:+: jsLower n.title.data) || decide (q <:+: jsLower n.content.data)

/-- `filteredNotes` (App.js lines 383-391): trim and lower-case the query
(`search.trim().toLowerCase()`); an empty query (`!q`) returns the
collection unchanged, otherwise filter with `noteMatches`. -/
def filteredNotes (notes : List Note) (search : String) : List Note :=
  let q := jsLower (jsTrim search.data)
  if q = [] then notes else notes.filter (noteMatches q)

/-- The visible list: `App` passes `filteredNotes` to `Sidebar`, which
displays its `sorted` value.  (The spec's `visibleNotes()`.) -/
def visibleNotes (notes : List Note) (search : String) : List Note :=
  sidebarSorted (filteredNotes notes search)

/-- `handleDeleteNote` (App.js lines 415-424), on the confirmed path
(`window.confirm` is presentation-layer).  Removes every note whose id
equals the active note's id, then picks the next active id as
`remaining.sort(byUpdatedDesc)[0]?.id || null`; note that `'' || null`
is `null`, hence the empty-id guard. -/
def handleDeleteNote (s : AppState) : AppState :=
  match activeNote s with
  | none => s
  | some act =>
    let remaining := s.notes.filter fun n => !(n.id == act.id)
    let nextActive : Option String :=
      match (jsStableSortByUpdatedDesc remaining).head? with
      | none => none
      | some m => if m.id = "" then none else some m.id
    ⟨remaining, nextActive⟩

/-- JSON values, the codomain of the host's `JSON.parse`. -/
inductive JValue where
  | null : JValue
  | bool (b : Bool) : JValue
  | num (n : Int) : JValue
  | str (s : String) : JValue
  | arr (elems : List JValue) : JValue
  | obj (fields : List (String × JValue)) : JValue
deriving Repr

/-- `loadNotes` (App.js lines 48-58).  `slot` is the durable entry
(`localStorage.getItem` returns `null` or the raw string); `parse` is the
host's `JSON.parse`, a thrown exception being `Except.error`.  The JS
guard `if (!raw) return []` is also taken by the empty string (falsy).
`Array.isArray(parsed)` admits exactly `JValue.arr`; the elements are
returned as-is, without validation.  All failures fall through to `[]`. -/
def loadNotes (slot : Option String) (parse : String → Except String JValue) :
    List JValue :=
  match slot with
  | none => []
  | some raw =>
    if raw = "" then []
    else
      match parse raw with
      | .error _ => []
      | .ok (JValue.arr xs) => xs
      | .ok _ => []

/-- One pass over the timed schedule calls of the debouncer
(`useDebouncedCallback`, App.js lines 28-43).  State: the optional armed
timer `(deadline, snapshot)`.  A call at time `t` first lets a pending
timer whose deadline has already been reached fire (persisting its
snapshot), then cancels whatever is pending (`clearTimeout`) and arms a
new timer at `t + delay` carrying the latest snapshot.  Returns the fires
`(fire time, snapshot)` emitted during the calls, and the final pending
timer. -/
def debounceRun (delay : Nat) :
    List (Nat × α) → Option (Nat × α) → List (Nat × α) × Option (Nat × α)
  | [], pending => ([], pending)
  | (t, s) :: rest, pending =>
    let fired : List (Nat × α) :=
      match pending with
      | some (dl, ps) => if dl ≤ t then [(dl, ps)] else []
      | none => []
    let next := debounceRun delay rest (some (t + delay, s))
    (fired ++ next.1, next.2)

/-- All persists when the process stays alive: after the calls, a still
pending timer eventually fires. -/
def debounceAll (delay : Nat) (events : List (Nat × α)) : List (Nat × α) :=
  let r := debounceRun delay events none
  r.1 ++ (match r.2 with | some (dl, ps) => [(dl, ps)] | none => [])

/-- All persists when the component is torn down at time `tEnd`: the
unmount cleanup (`useEffect(() => () => clearTimeout(...), [])`, App.js
line 41) cancels a timer that has not fired by `tEnd`. -/
def debounceTeardown (delay : Nat) (events : List (Nat × α)) (tEnd : Nat) :
    List (Nat × α) :=
  let r := debounceRun delay events none
  r.1 ++ (match r.2 with
          | some (dl, ps) => if dl ≤ tEnd then [(dl, ps)] else []
          | none => [])

/-- The claim's "within less than the quiet period of one another":
strictly increasing call times, each successive call strictly earlier
than the previous call's deadline. -/
def rapidBurst (delay : Nat) : List (Nat × α) → Bool
  | [] => true
  | [_] => true
  | a :: b :: rest => (a.1 < b.1 && b.1 < a.1 + delay) && rapidBurst delay (b :: rest)

/-- The character class of the JS regex `\s` (ECMAScript WhiteSpace and
LineTerminator code points), used by `/^#\s+/` etc. and by `trim()`. -/
def isJsSpace (c : Char) : Bool :=
  ([0x09, 0x0A, 0x0B, 0x0C, 0x0D, 0x20, 0xA0, 0x1680, 0x2000, 0x2001, 0x2002,
    0x2003, 0x2004, 0x2005, 0x2006, 0x2007, 0x2008, 0x2009, 0x200A, 0x2028,
    0x2029, 0x202F, 0x205F, 0x3000, 0xFEFF] : List Nat).contains c.toNat

/-- The JS regex `.` matches any character except a LineTerminator. -/
def notLineTerm (c : Char) : Bool :=
  !(([0x0A, 0x0D, 0x2028, 0x2029] : List Nat).contains c.toNat)

/-- Global single-character replacement: `s.replace(/x/g, r)` for a literal
one-character pattern `x` replaces every occurrence of `x` by `r`. -/
def replaceAllChar (c : Char) (r : List Char) : List Char → List Char
  | [] => []
  | x :: xs => (if x = c then r else [x]) ++ replaceAllChar c r xs

/-- `esc` (App.js lines 77-80): `s.replace(/&/g,'&amp;').replace(/</g,'&lt;').replace(/>/g,'&gt;')`,
the three global replacements applied in source order. -/
def esc (l : List Char) : List Char :=
  replaceAllChar '>' ("&gt;".data)
    (replaceAllChar '<' ("&lt;".data)
      (replaceAllChar '&' ("&amp;".data) l))

/-- Per-character view of `esc`, used by the proofs: since `&amp;` holds no
`<` or `>` and `&lt;`/`&gt;` hold no later-replaced characters, the three
sequential passes act independently on each character. -/
def escChar (c : Char) : List Char :=
  if c = '&' then ("&amp;".data)
  else if c = '<' then ("&lt;".data)
  else if c = '>' then ("&gt;".data)
  else [c]

/-- `/^#^k\s+/.test(line)`: exactly `k` leading `#` characters followed by
at least one whitespace character. -/
def startsHash (k : Nat) (l : List Char) : Bool :=
  (List.replicate k '#').isPrefixOf l &&
    match l.drop k with
    | c :: _ => isJsSpace c
    | [] => false

/-- `line.replace(/^#^k\s+/, '')`: strip the `#` run and the greedy
maximal whitespace run after it. -/
def stripHash (k : Nat) (l : List Char) : List Char :=
  (l.drop k).dropWhile isJsSpace

/-- Lazy sub-match for `(.+?)` followed by the literal delimiter `d`: the
capture grows one `.`-matchable character at a time and the delimiter is
tried first at every length, exactly the backtracking order of a lazy
quantifier.  Returns the capture and the text after the closing
delimiter. -/
def findClose (d : List Char) : List Char → Option (List Char × List Char)
  | [] => none
  | c :: rest =>
    if notLineTerm c then
      if d.isPrefixOf rest then some ([c], rest.drop d.length)
      else
        match findClose d rest with
        | some (cap, after) => some (c :: cap, after)
        | none => none
    else none

/-- Try the whole pattern `d(.+?)d` at the current position. -/
def matchAt (d l : List Char) : Option (List Char × List Char) :=
  if d.isPrefixOf l then findClose d (l.drop d.length) else none

/-- The scan of a global replace `s.replace(/d(.+?)d/g, pre + '$1' + post)`:
try the pattern at each position; on a match, emit `pre ++ capture ++ post`
and resume after the match; otherwise copy one character and advance.
The fuel only bounds the recursion; every step consumes at least one input
character (a match consumes `2*|d| + |capture| ≥ 1` characters), so fuel
`l.length` never runs out. -/
def scanRepl (d pre post : List Char) : Nat → List Char → List Char
  | 0, l => l
  | _ + 1, [] => []
  | fuel + 1, c :: rest =>
    match matchAt d (c :: rest) with
    | some (cap, after) => pre ++ cap ++ post ++ scanRepl d pre post fuel after
    | none => c :: scanRepl d pre post fuel rest

/-- `s.replace(/d(.+?)d/g, pre + '$1' + post)`. -/
def jsReplaceAll (d pre post l : List Char) : List Char :=
  scanRepl d pre post l.length l

/-- The inline substitutions (App.js lines 96-99), in source order:
`**bold**`, then `*italic*`, then backtick code. -/
def inlineSubst (l : List Char) : List Char :=
  jsReplaceAll ("`".data) ("<code>".data) ("</code>".data)
    (jsReplaceAll ("*".data) ("<em>".data) ("</em>".data)
      (jsReplaceAll ("**".data) ("<strong>".data) ("</strong>".data) l))

/-- One line of `renderBasicMarkdown` (App.js lines 83-103).  The heading
tests run on the raw line (stripping first, escaping the remainder); the
blank test `l.trim().length === 0` on the escaped line `l` holds exactly
when every character is whitespace; otherwise the inline substitutions
run on the escaped line, wrapped in a paragraph. -/
def renderLine (line : List Char) : List Char :=
  let l := esc line
  if startsHash 3 line then ("<h3>".data) ++ esc (stripHash 3 line) ++ ("</h3>".data)
  else if startsHash 2 line then ("<h2>".data) ++ esc (stripHash 2 line) ++ ("</h2>".data)
  else if startsHash 1 line then ("<h1>".data) ++ esc (stripHash 1 line) ++ ("</h1>".data)
  else if l.all isJsSpace then ("<br/>".data)
  else ("<p>".data) ++ inlineSubst l ++ ("</p>".data)

/-- Variant of `renderLine` following the spec's ordering clause to the
letter: the line is escaped first, and heading detection and stripping
operate on the already-escaped line.  Proved extensionally equal to
`renderLine` (the stripped prefix holds no escapable character). -/
def renderLineSpecOrder (line : List Char) : List Char :=
  let l := esc line
  if startsHash 3 l then ("<h3>".data) ++ stripHash 3 l ++ ("</h3>".data)
  else if startsHash 2 l then ("<h2>".data) ++ stripHash 2 l ++ ("</h2>".data)
  else if startsHash 1 l then ("<h1>".data) ++ stripHash 1 l ++ ("</h1>".data)
  else if l.all isJsSpace then ("<br/>".data)
  else ("<p>".data) ++ inlineSubst l ++ ("</p>".data)

/-- `htmlLines.join('\n')`. -/
def joinNL : List (List Char) → List Char
  | [] => []
  | [x] => x
  | x :: y :: rest => x ++ '\n' :: joinNL (y :: rest)

/-- `renderBasicMarkdown` (App.js lines 76-105): split on newlines, render
each line, join with newlines. -/
def renderBasicMarkdown (text : List Char) : List Char :=
  joinNL ((text.splitOn '\n').map renderLine)

/-- String-level wrapper of the renderer. -/
def renderString (s : String) : String :=
  String.mk (renderBasicMarkdown s.data)

/-- Absence of the three-character substring `<sc`: every occurrence of
`<script>` contains it, so its absence rules the literal `<script>` out. -/
@[reducible]
def noLtSc (l : List Char) : Prop := ¬ (('<' :: 's' :: 'c' :: []) <:+: l)

/-- Concrete sample note used by counterexamples and witnesses. -/
def exNote : Note := ⟨"a", "t", "c", 5, 7, false, none⟩

/-- A payload that tries to overwrite `createdAt`. -/
def exPayloadCreated : PartialNote := { createdAt := some 99 }

/-- A payload that tries to overwrite `id`. -/
def exPayloadId : PartialNote := { id := some "b" }

/-- A payload that only changes the title. -/
def exPayloadTitle : PartialNote := { title := some "T2" }

/-- Sample note A of the spec's sort example: pinned, `updatedAt` = 1, the
only one whose content holds "foo". -/
def exA : Note := ⟨"A", "alpha", "has foo inside", 0, 1, true, none⟩

/-- Sample note B: pinned, `updatedAt` = 2. -/
def exB : Note := ⟨"B", "beta", "bar", 0, 2, true, none⟩

/-- Sample note C: unpinned, `updatedAt` = 3. -/
def exC : Note := ⟨"C", "gamma", "baz", 0, 3, false, none⟩

/-- Sample note X of the spec's delete example: `updatedAt` = 5. -/
def exX : Note := ⟨"x", "xt", "xc", 0, 5, false, none⟩

/-- Sample note Y of the spec's delete example: `updatedAt` = 9. -/
def exY : Note := ⟨"y", "yt", "yc", 0, 9, false, none⟩

/-! ### Claims C2 and C3: `updateNote` -/

/-- Claim C2, counterexample: `updateNote` does not protect `createdAt`.
With the payload `{ createdAt: 99 }` merged into the sample note (whose
`createdAt` is 5), the stored note's `createdAt` becomes 99. -/
theorem updateNote_createdAt_cex :
    (updateNote (spreadMerge exNote exPayloadCreated) 10 [exNote]).map
        (fun n => n.createdAt) = [99] ∧
    exNote.createdAt ≠ 99 ∧ exPayloadCreated.id = none := by decide

/-- Claim C2 (amended): for payloads that do not override `id`, the note's
`id` is preserved and `updatedAt` is set to `now` (hence `≥` the prior
value whenever the clock is monotone), but `createdAt` is taken from the
payload: it is overwritten when the payload holds it and kept otherwise. -/
theorem updateNote_identity_amended (notes : List Note) (n : Note) (p : PartialNote)
    (now : Nat) (hn : n ∈ notes) (hid : p.id = none) (hclock : n.updatedAt ≤ now) :
    ({ spreadMerge n p with updatedAt := now } : Note) ∈
        updateNote (spreadMerge n p) now notes ∧
    (spreadMerge n p).id = n.id ∧
    ({ spreadMerge n p with updatedAt := now } : Note).createdAt =
        p.createdAt.getD n.createdAt ∧
    n.updatedAt ≤ ({ spreadMerge n p with updatedAt := now } : Note).updatedAt := by
  have hid' : (spreadMerge n p).id = n.id := by simp [spreadMerge, hid]
  refine ⟨?_, hid', by simp [spreadMerge], hclock⟩
  unfold updateNote
  have h := List.mem_map_of_mem
    (fun m => if m.id = (spreadMerge n p).id then
        ({ spreadMerge n p with updatedAt := now } : Note) else m) hn
  simpa [hid'] using h

/-- Claim C2, witness for the amended theorem at a concrete input. -/
theorem updateNote_identity_amended_witness :
    (exNote ∈ [exNote] ∧ exPayloadCreated.id = none ∧ exNote.updatedAt ≤ 10) ∧
    ({ spreadMerge exNote exPayloadCreated with updatedAt := 10 } : Note) ∈
        updateNote (spreadMerge exNote exPayloadCreated) 10 [exNote] :=
  ⟨by decide,
   (updateNote_identity_amended [exNote] exNote exPayloadCreated 10
      (by decide) rfl (by decide)).1⟩

/-- Claim C3, counterexample: a payload that overrides `id` does not yield
a merged replacement of the target note; the collection is left entirely
unchanged (the map matches on the payload's id, not the target's). -/
theorem updateNote_id_override_cex :
    updateNote (spreadMerge exNote exPayloadId) 10 [exNote] = [exNote] ∧
    (spreadMerge exNote exPayloadId).id ≠ exNote.id ∧
    [exNote] ≠ [({ spreadMerge exNote exPayloadId with updatedAt := 10 } : Note)] := by
  decide

/-- Claim C3 (amended): for payloads that do not override `id`,
`updateNote` replaces every note carrying the target id by the merged
copy — payload fields (including `createdAt`) take their payload values,
all other fields keep the prior note's values — with `updatedAt`
refreshed; and a payload overriding `id` to an id absent from the
collection leaves the collection unchanged. -/
theorem updateNote_merge_amended (notes : List Note) (n : Note) (p : PartialNote)
    (now : Nat) (hid : p.id = none) :
    updateNote (spreadMerge n p) now notes =
      notes.map (fun m => if m.id = n.id then
        ({ spreadMerge n p with updatedAt := now } : Note) else m) ∧
    (spreadMerge n p).id = n.id ∧
    (spreadMerge n p).title = p.title.getD n.title ∧
    (spreadMerge n p).content = p.content.getD n.content ∧
    (spreadMerge n p).createdAt = p.createdAt.getD n.createdAt ∧
    (spreadMerge n p).pinned = p.pinned.getD n.pinned ∧
    (spreadMerge n p).color = p.color.getD n.color ∧
    (∀ (q : PartialNote) (j : String), q.id = some j →
      (∀ m ∈ notes, m.id ≠ j) →
      updateNote (spreadMerge n q) now notes = notes) := by
  have hid' : (spreadMerge n p).id = n.id := by simp [spreadMerge, hid]
  refine ⟨by simp [updateNote, hid'], hid', rfl, rfl, rfl, rfl, rfl, ?_⟩
  intro q j hq habs
  unfold updateNote
  have hqid : (spreadMerge n q).id = j := by simp [spreadMerge, hq]
  calc notes.map (fun m => if m.id = (spreadMerge n q).id then
          ({ spreadMerge n q with updatedAt := now } : Note) else m)
      = notes.map id := by
        apply List.map_congr_left
        intro m hm
        simp [hqid, habs m hm]
    _ = notes := List.map_id notes

/-- Claim C3, witness for the amended theorem at a concrete input. -/
theorem updateNote_merge_amended_witness :
    exPayloadTitle.id = none ∧
    updateNote (spreadMerge exNote exPayloadTitle) 10 [exNote] =
      [exNote].map (fun m => if m.id = exNote.id then
        ({ spreadMerge exNote exPayloadTitle with updatedAt := 10 } : Note) else m) :=
  ⟨rfl, (updateNote_merge_amended [exNote] exNote exPayloadTitle 10 rfl).1⟩

/-! ### Claim C7: `handleSelectNote` -/

/-- Claim C7, counterexample: selecting an id that is absent from the
collection is not a no-op — the pointer is reassigned to the unknown id. -/
theorem handleSelectNote_unknown_id_cex :
    (∀ n ∈ (⟨[exNote], some "a"⟩ : AppState).notes, n.id ≠ "zzz") ∧
    (handleSelectNote ⟨[exNote], some "a"⟩ "zzz").activeId ≠
      (⟨[exNote], some "a"⟩ : AppState).activeId := by decide

/-- Claim C7 (amended): `selectNote(id)` sets the active pointer to `id`
unconditionally, whether or not a note with that id exists; no membership
check is performed and the collection is untouched. -/
theorem handleSelectNote_sets_pointer (notes : List Note) (aid : Option String)
    (id : String) :
    handleSelectNote ⟨notes, aid⟩ id = ⟨notes, some id⟩ := rfl

/-! ### Claims C8 and C10: `loadNotes` -/

/-- Claim C8: an absent slot, a raw value on which the parser throws, and
a parsed value that is not an array all make `loadNotes` return the empty
collection (the JS `try`/`catch` plus `Array.isArray` guard); the
function is total, so no exception reaches the caller. -/
theorem loadNotes_defensive (parse : String → Except String JValue) (raw : String) :
    loadNotes none parse = [] ∧
    (∀ e, parse raw = .error e → loadNotes (some raw) parse = []) ∧
    (∀ v, parse raw = .ok v → (∀ xs, v ≠ JValue.arr xs) →
      loadNotes (some raw) parse = []) := by
  refine ⟨rfl, ?_, ?_⟩
  · intro e he
    by_cases h : raw = "" <;> simp [loadNotes, h, he]
  · intro v hv hne
    by_cases h : raw = ""
    · simp [loadNotes, h]
    · cases v with
      | arr xs => exact absurd rfl (hne xs)
      | null => simp [loadNotes, h, hv]
      | bool b => simp [loadNotes, h, hv]
      | num m => simp [loadNotes, h, hv]
      | str s2 => simp [loadNotes, h, hv]
      | obj fs => simp [loadNotes, h, hv]

/-- Claim C8, witness: a slot holding `"not json"` (parser throws) and a
slot decoding to a JSON object both load as the empty collection. -/
theorem loadNotes_defensive_witness :
    loadNotes (some "not json") (fun _ => .error "SyntaxError") = [] ∧
    loadNotes (some "\x7b\x7d") (fun _ => .ok (JValue.obj [])) = [] :=
  ⟨(loadNotes_defensive (fun _ => .error "SyntaxError") "not json").2.1 "SyntaxError" rfl,
   (loadNotes_defensive (fun _ => .ok (JValue.obj [])) "\x7b\x7d").2.2
     (JValue.obj []) rfl (fun _ h => JValue.noConfusion h)⟩

/-- Claim C10: when the slot decodes to a JSON array, `loadNotes` returns
the decoded elements verbatim — no element validation, no defaulting of
missing note fields; an array of bare numbers is accepted as the
collection as-is. -/
theorem loadNotes_verbatim (parse : String → Except String JValue) (raw : String)
    (xs : List JValue) (hraw : raw ≠ "") (h : parse raw = .ok (JValue.arr xs)) :
    loadNotes (some raw) parse = xs := by
  simp [loadNotes, hraw, h]

/-- Claim C10, witness: a slot decoding to `[1,2,3]` loads as the
three-element collection of bare numbers. -/
theorem loadNotes_verbatim_witness :
    ("[1,2,3]" : String) ≠ "" ∧
    loadNotes (some "[1,2,3]")
        (fun _ => .ok (JValue.arr [JValue.num 1, JValue.num 2, JValue.num 3])) =
      [JValue.num 1, JValue.num 2, JValue.num 3] :=
  ⟨by decide,
   loadNotes_verbatim (fun _ => .ok (JValue.arr [JValue.num 1, JValue.num 2, JValue.num 3]))
     "[1,2,3]" _ (by decide) rfl⟩

/-! ### Claim C9: the write coalescer -/

/-- Inside a rapid burst no pending timer ever reaches its deadline before
the next schedule call: the run emits no fire at all and ends with the
timer armed for the last call. -/
theorem debounceRun_rapid (delay : Nat) :
    ∀ (es : List (Nat × α)) (t0 : Nat) (s0 : α),
      rapidBurst delay ((t0, s0) :: es) = true →
      debounceRun delay es (some (t0 + delay, s0)) =
        ([], some ((es.getLastD (t0, s0)).1 + delay, (es.getLastD (t0, s0)).2)) := by
  intro es
  induction es with
  | nil => intro t0 s0 _; simp [debounceRun, List.getLastD]
  | cons hd tl ih =>
    intro t0 s0 h
    obtain ⟨t1, s1⟩ := hd
    simp only [rapidBurst, Bool.and_eq_true, decide_eq_true_eq] at h
    obtain ⟨⟨h01, h02⟩, h3⟩ := h
    have hfire : ¬ (t0 + delay ≤ t1) := Nat.not_le.mpr h02
    simp only [debounceRun, hfire, if_false, List.nil_append]
    rw [ih t1 s1 h3, List.getLastD_cons]

/-- Claim C9: N schedule calls, each within less than the quiet period of
the previous one, produce exactly one persist, at the last call's deadline
and carrying the last call's snapshot — every earlier timer is cancelled
by its successor, so no intermediate snapshot is ever persisted; teardown
before that deadline cancels the pending timer so nothing is persisted at
all, and in every case no persist happens after the teardown instant. -/
theorem debounce_coalesces (delay : Nat) (es : List (Nat × α)) (hne : es ≠ [])
    (hrapid : rapidBurst delay es = true) :
    debounceAll delay es = [((es.getLast hne).1 + delay, (es.getLast hne).2)] ∧
    (∀ tEnd, tEnd < (es.getLast hne).1 + delay → debounceTeardown delay es tEnd = []) ∧
    (∀ tEnd x, x ∈ debounceTeardown delay es tEnd → x.1 ≤ tEnd) := by
  obtain ⟨⟨t0, s0⟩, tl, rfl⟩ := List.exists_cons_of_ne_nil hne
  have hrun := debounceRun_rapid delay tl t0 s0 hrapid
  have hlast : ((t0, s0) :: tl).getLast hne = tl.getLastD (t0, s0) :=
    List.getLast_eq_getLastD (t0, s0) tl hne
  rw [hlast]
  refine ⟨?_, ?_, ?_⟩
  · simp only [debounceAll, debounceRun, hrun]
    simp
  · intro tEnd htEnd
    simp only [debounceTeardown, debounceRun, hrun]
    rw [if_neg (Nat.not_le.mpr htEnd)]
    simp
  · intro tEnd x hx
    simp only [debounceTeardown, debounceRun, hrun] at hx
    simp at hx
    obtain ⟨h1, rfl⟩ := hx
    simpa using h1

/-- Claim C9, witness: three schedule calls at times 0, 100, 200 with a
300-unit quiet period persist exactly once, at time 500, carrying the
last snapshot; teardown at time 400 cancels the pending write. -/
theorem debounce_coalesces_witness :
    ([(0, "a"), (100, "b"), (200, "c")] : List (Nat × String)) ≠ [] ∧
    rapidBurst 300 ([(0, "a"), (100, "b"), (200, "c")] : List (Nat × String)) = true ∧
    debounceAll 300 ([(0, "a"), (100, "b"), (200, "c")] : List (Nat × String)) =
      [(500, "c")] ∧
    debounceTeardown 300 ([(0, "a"), (100, "b"), (200, "c")] : List (Nat × String)) 400 =
      [] := by
  refine ⟨by decide, by decide, ?_, ?_⟩
  · exact (debounce_coalesces 300 [(0, "a"), (100, "b"), (200, "c")]
      (by decide) (by decide)).1
  · exact (debounce_coalesces 300 [(0, "a"), (100, "b"), (200, "c")]
      (by decide) (by decide)).2.1 400 (by decide)

/-! ### Sorting lemmas: stability and commutation with filtering -/

/-- Inserting an element that is `r`-before everything in the list puts it
at the head. -/
theorem orderedInsert_of_forall {α : Type u} {r : α → α → Prop} [DecidableRel r]
    (a : α) (l : List α) (h : ∀ x ∈ l, r a x) :
    List.orderedInsert r a l = a :: l := by
  cases l with
  | nil => rfl
  | cons b t => simp [List.orderedInsert, if_pos (h b (by simp))]

/-- A list in which any two elements are related sorts to itself: the
stable sort keeps tied elements in their original order. -/
theorem insertionSort_eq_self {α : Type u} {r : α → α → Prop} [DecidableRel r]
    (l : List α) (h : ∀ x ∈ l, ∀ y ∈ l, r x y) :
    List.insertionSort r l = l := by
  induction l with
  | nil => rfl
  | cons a t ih =>
    have ht : List.insertionSort r t = t :=
      ih fun x hx y hy => h x (by simp [hx]) y (by simp [hy])
    simp only [List.insertionSort, ht]
    exact orderedInsert_of_forall a t fun x hx => h a (by simp) x (by simp [hx])

/-- Filtering commutes with ordered insertion into a sorted list. -/
theorem filter_orderedInsert {α : Type u} {r : α → α → Prop} [DecidableRel r]
    [IsTrans α r] (p : α → Bool) (a : α) (l : List α) (hs : l.Sorted r) :
    (List.orderedInsert r a l).filter p =
      if p a then List.orderedInsert r a (l.filter p) else l.filter p := by
  induction l with
  | nil =>
    by_cases hp : p a <;> simp [List.orderedInsert, hp]
  | cons b t ih =>
    have hb : ∀ x ∈ t, r b x := (List.sorted_cons.mp hs).1
    have ht : t.Sorted r := (List.sorted_cons.mp hs).2
    by_cases hr : r a b
    · rw [List.orderedInsert, if_pos hr]
      by_cases hp : p a
      · have hall : ∀ x ∈ (b :: t).filter p, r a x := by
          intro x hx
          have hx' := List.mem_of_mem_filter hx
          rcases List.mem_cons.mp hx' with h' | h'
          · exact h' ▸ hr
          · exact Trans.trans hr (hb x h')
        rw [if_pos hp, orderedInsert_of_forall a _ hall]
        simp [hp]
      · simp [hp]
    · rw [List.orderedInsert, if_neg hr]
      by_cases hp : p a
      · by_cases hpb : p b
        · rw [List.filter_cons_of_pos (by simp [hpb]), ih ht, if_pos hp,
             List.filter_cons_of_pos (by simp [hpb]), List.orderedInsert, if_neg hr]
          simp [hp]
        · rw [List.filter_cons_of_neg (by simp [hpb]), ih ht, if_pos hp,
             List.filter_cons_of_neg (by simp [hpb])]
          simp [hp]
      · rw [List.filter_cons, ih ht, if_neg hp, List.filter_cons]
        simp [hp]

/-- Filtering commutes with the stable sort: sorting then filtering equals
filtering then sorting.  This is exactly the "filtering composes with the
sort as if applied after it" property. -/
theorem filter_insertionSort {α : Type u} {r : α → α → Prop} [DecidableRel r]
    [IsTrans α r] [IsTotal α r] (p : α → Bool) (l : List α) :
    (List.insertionSort r l).filter p = List.insertionSort r (l.filter p) := by
  induction l with
  | nil => rfl
  | cons a t ih =>
    simp only [List.insertionSort]
    rw [filter_orderedInsert p a _ (List.sorted_insertionSort r t), ih]
    by_cases hp : p a <;> simp [List.filter_cons, hp, List.insertionSort]

/-- The permutations of a two-element list. -/
theorem perm_pair {α : Type u} {y z u v : α} (h : ([y, z] : List α).Perm [u, v]) :
    (y = u ∧ z = v) ∨ (y = v ∧ z = u) := by
  have hy : y ∈ [u, v] := h.mem_iff.mp (by simp)
  rcases List.mem_cons.mp hy with rfl | hy'
  · left
    have h2 := h.cons_inv
    exact ⟨rfl, by simpa using List.perm_singleton.mp h2⟩
  · simp only [List.mem_cons, List.not_mem_nil, or_false] at hy'
    subst hy'
    right
    have hswap : ([u, y] : List α).Perm [y, u] := List.Perm.swap y u []
    have h2 := (h.trans hswap).cons_inv
    exact ⟨rfl, by simpa using List.perm_singleton.mp h2⟩

/-- The permutations of a three-element list. -/
theorem perm_three {α : Type u} {l : List α} {a b c : α} (h : l.Perm [a, b, c]) :
    l = [a, b, c] ∨ l = [a, c, b] ∨ l = [b, a, c] ∨ l = [b, c, a] ∨
      l = [c, a, b] ∨ l = [c, b, a] := by
  have hlen := h.length_eq
  obtain ⟨x, y, z, rfl⟩ : ∃ x y z, l = [x, y, z] := by
    rcases l with _ | ⟨x, l⟩
    · simp at hlen
    rcases l with _ | ⟨y, l⟩
    · simp at hlen
    rcases l with _ | ⟨z, l⟩
    · simp at hlen
    rcases l with _ | ⟨w, l⟩
    · exact ⟨x, y, z, rfl⟩
    · simp at hlen
  have hx : x ∈ [a, b, c] := h.mem_iff.mp (by simp)
  rcases List.mem_cons.mp hx with rfl | hx'
  · have h2 := h.cons_inv
    rcases perm_pair h2 with ⟨rfl, rfl⟩ | ⟨rfl, rfl⟩
    · exact Or.inl rfl
    · exact Or.inr (Or.inl rfl)
  · rcases List.mem_cons.mp hx' with rfl | hx''
    · have hswap : ([a, x, c] : List α).Perm [x, a, c] := List.Perm.swap x a [c]
      have h2 := (h.trans hswap).cons_inv
      rcases perm_pair h2 with ⟨rfl, rfl⟩ | ⟨rfl, rfl⟩
      · exact Or.inr (Or.inr (Or.inl rfl))
      · exact Or.inr (Or.inr (Or.inr (Or.inl rfl)))
    · simp only [List.mem_cons, List.not_mem_nil, or_false] at hx''
      subst hx''
      have hswap : ([a, b, x] : List α).Perm [x, a, b] :=
        (List.Perm.cons a (List.Perm.swap x b [])).trans (List.Perm.swap x a [b])
      have h2 := (h.trans hswap).cons_inv
      rcases perm_pair h2 with ⟨rfl, rfl⟩ | ⟨rfl, rfl⟩
      · exact Or.inr (Or.inr (Or.inr (Or.inr (Or.inl rfl))))
      · exact Or.inr (Or.inr (Or.inr (Or.inr (Or.inr rfl))))

/-- The sidebar's displayed list is a permutation of the collection. -/
theorem sidebarSorted_perm (notes : List Note) :
    (sidebarSorted notes).Perm notes := by
  have h1 := List.perm_insertionSort updatedDescOrder (notes.filter fun n => n.pinned)
  have h2 := List.perm_insertionSort updatedDescOrder (notes.filter fun n => !n.pinned)
  exact (h1.append h2).trans (List.filter_append_perm (fun n => n.pinned) notes)

/-! ### Claim C4: pinned-first, `updatedAt`-descending, stable -/

/-- Claim C4: the visible list with an empty query is the sidebar's sorted
list; it is the pinned block followed by the unpinned block, a permutation
of the collection; each block is ordered by `updatedAt` descending; ties
keep their original collection order (the elements of any fixed
`updatedAt` appear exactly as in the collection); and on the spec's
example notes every insertion order yields `[B, A, C]`. -/
theorem visibleNotes_sorted_partition (notes l : List Note) :
    visibleNotes notes "" = sidebarSorted notes ∧
    sidebarSorted notes =
      jsStableSortByUpdatedDesc (notes.filter fun n => n.pinned) ++
        jsStableSortByUpdatedDesc (notes.filter fun n => !n.pinned) ∧
    (sidebarSorted notes).Perm notes ∧
    (jsStableSortByUpdatedDesc (notes.filter fun n => n.pinned)).Sorted updatedDescOrder ∧
    (jsStableSortByUpdatedDesc (notes.filter fun n => !n.pinned)).Sorted updatedDescOrder ∧
    (∀ t, (jsStableSortByUpdatedDesc (notes.filter fun n => n.pinned)).filter
        (fun n => n.updatedAt == t) =
      (notes.filter fun n => n.pinned).filter (fun n => n.updatedAt == t)) ∧
    (∀ t, (jsStableSortByUpdatedDesc (notes.filter fun n => !n.pinned)).filter
        (fun n => n.updatedAt == t) =
      (notes.filter fun n => !n.pinned).filter (fun n => n.updatedAt == t)) ∧
    (l.Perm [exA, exB, exC] → sidebarSorted l = [exB, exA, exC]) := by
  have stable : ∀ (m : List Note) (t : Nat),
      (jsStableSortByUpdatedDesc m).filter (fun n => n.updatedAt == t) =
        m.filter (fun n => n.updatedAt == t) := by
    intro m t
    unfold jsStableSortByUpdatedDesc
    rw [filter_insertionSort]
    apply insertionSort_eq_self
    intro x hx y hy
    have hx' := (List.mem_filter.mp hx).2
    have hy' := (List.mem_filter.mp hy).2
    have hx'' : x.updatedAt = t := by simpa using hx'
    have hy'' : y.updatedAt = t := by simpa using hy'
    unfold updatedDescOrder
    omega
  refine ⟨rfl, rfl, sidebarSorted_perm notes,
    List.sorted_insertionSort _ _, List.sorted_insertionSort _ _,
    fun t => stable _ t, fun t => stable _ t, ?_⟩
  intro hp
  rcases perm_three hp with rfl | rfl | rfl | rfl | rfl | rfl <;> decide

/-- Claim C4, witness: a concrete insertion order of the example notes. -/
theorem visibleNotes_sorted_partition_witness :
    ([exC, exA, exB] : List Note).Perm [exA, exB, exC] ∧
    sidebarSorted [exC, exA, exB] = [exB, exA, exC] :=
  ⟨by decide,
   (visibleNotes_sorted_partition [] [exC, exA, exB]).2.2.2.2.2.2.2 (by decide)⟩

/-! ### Claim C5: search filtering -/

/-- Claim C5: with a non-empty (trimmed, case-folded) query the visible
list keeps exactly the notes whose case-folded title or content holds the
query as a substring, and it equals the unfiltered sorted/partitioned list
filtered afterwards — the code filters before sorting, but the stable sort
commutes with filtering, so the relative order is as if the filter ran
after the sort. -/
theorem visibleNotes_search_filter (notes : List Note) (search : String)
    (h : jsLower (jsTrim search.data) ≠ []) :
    visibleNotes notes search =
      (sidebarSorted notes).filter (noteMatches (jsLower (jsTrim search.data))) ∧
    (∀ n, n ∈ visibleNotes notes search ↔
      n ∈ notes ∧ noteMatches (jsLower (jsTrim search.data)) n = true) := by
  have hfd : filteredNotes notes search =
      notes.filter (noteMatches (jsLower (jsTrim search.data))) := by
    simp only [filteredNotes]
    rw [if_neg h]
  have hcomm : visibleNotes notes search =
      (sidebarSorted notes).filter (noteMatches (jsLower (jsTrim search.data))) := by
    unfold visibleNotes
    rw [hfd]
    unfold sidebarSorted jsStableSortByUpdatedDesc
    rw [List.filter_append]
    congr 1
    · rw [filter_insertionSort, List.filter_comm]
    · rw [filter_insertionSort, List.filter_comm]
  refine ⟨hcomm, fun n => ?_⟩
  rw [hcomm, List.mem_filter, (sidebarSorted_perm notes).mem_iff]

/-- Claim C5, witness: on the example notes only A matches "foo", and the
visible list under that query is exactly `[A]`. -/
theorem visibleNotes_search_filter_witness :
    (jsLower (jsTrim "foo".data) ≠ []) ∧
    visibleNotes [exA, exB, exC] "foo" =
      (sidebarSorted [exA, exB, exC]).filter (noteMatches (jsLower (jsTrim "foo".data))) ∧
    visibleNotes [exA, exB, exC] "foo" = [exA] :=
  ⟨by decide,
   (visibleNotes_search_filter [exA, exB, exC] "foo" (by decide)).1,
   by decide⟩

/-! ### Claim C6: `handleDeleteNote` -/

/-- The head of the stable descending sort is the leftmost maximum: the
original list splits as `l₁ ++ m :: l₂` with everything in `l₁` strictly
older than `m` and nothing anywhere newer than `m`. -/
theorem sortDesc_head_leftmost_max :
    ∀ l : List Note, l ≠ [] → ∃ m l₁ l₂,
      (jsStableSortByUpdatedDesc l).head? = some m ∧
      l = l₁ ++ m :: l₂ ∧
      (∀ x ∈ l₁, x.updatedAt < m.updatedAt) ∧
      (∀ x ∈ l, x.updatedAt ≤ m.updatedAt) := by
  intro l
  induction l with
  | nil => intro h; exact absurd rfl h
  | cons a t ih =>
    intro _
    by_cases ht : t = []
    · subst ht
      exact ⟨a, [], [], rfl, rfl, by simp, by simp⟩
    · obtain ⟨m', t₁, t₂, hh, hdec, hlt, hle⟩ := ih ht
      obtain ⟨rest, hrest⟩ : ∃ rest, jsStableSortByUpdatedDesc t = m' :: rest := by
        cases hst : jsStableSortByUpdatedDesc t with
        | nil => rw [hst] at hh; exact absurd hh (by simp)
        | cons c r =>
          rw [hst] at hh
          simp only [List.head?_cons, Option.some.injEq] at hh
          subst hh
          exact ⟨r, rfl⟩
      by_cases hr : updatedDescOrder a m'
      · refine ⟨a, [], t, ?_, rfl, by simp, ?_⟩
        · have : jsStableSortByUpdatedDesc (a :: t) =
              a :: m' :: rest := by
            unfold jsStableSortByUpdatedDesc at hrest ⊢
            simp only [List.insertionSort, hrest, List.orderedInsert, if_pos hr]
          simp [this]
        · intro x hx
          rcases List.mem_cons.mp hx with rfl | hx'
          · exact Nat.le_refl _
          · exact Nat.le_trans (hle x hx') hr
      · refine ⟨m', a :: t₁, t₂, ?_, by simp [hdec], ?_, ?_⟩
        · have : jsStableSortByUpdatedDesc (a :: t) =
              m' :: List.orderedInsert updatedDescOrder a rest := by
            unfold jsStableSortByUpdatedDesc at hrest ⊢
            simp only [List.insertionSort, hrest, List.orderedInsert, if_neg hr]
          simp [this]
        · intro x hx
          rcases List.mem_cons.mp hx with rfl | hx'
          · exact Nat.lt_of_not_le hr
          · exact hlt x hx'
        · intro x hx
          rcases List.mem_cons.mp hx with rfl | hx'
          · exact Nat.le_of_lt (Nat.lt_of_not_le hr)
          · exact hle x hx'

/-- Removing a member by id from a collection with unique ids removes
exactly that note. -/
theorem filter_ne_perm :
    ∀ (l : List Note) (a : Note), a ∈ l → (l.map (fun n => n.id)).Nodup →
      l.Perm (a :: l.filter (fun n => !(n.id == a.id))) := by
  intro l
  induction l with
  | nil => intro a ha; exact absurd ha (by simp)
  | cons h t ih =>
    intro a ha hnd
    have hnd' : (t.map (fun n => n.id)).Nodup := (List.nodup_cons.mp hnd).2
    have hhead : h.id ∉ t.map (fun n => n.id) := (List.nodup_cons.mp hnd).1
    rcases List.mem_cons.mp ha with rfl | ha'
    · have hkeep : t.filter (fun n => !(n.id == a.id)) = t := by
        apply List.filter_eq_self.mpr
        intro x hx
        have : x.id ≠ a.id := by
          intro hcontra
          exact hhead (hcontra ▸ List.mem_map_of_mem (fun n => n.id) hx)
        simp [this]
      have hself : (a :: t).filter (fun n => !(n.id == a.id)) = t := by
        rw [List.filter_cons_of_neg (by simp), hkeep]
      rw [hself]
    · have hne : h.id ≠ a.id := by
        intro hcontra
        exact hhead (hcontra ▸ List.mem_map_of_mem (fun n => n.id) ha')
      have : (h :: t).filter (fun n => !(n.id == a.id)) =
          h :: t.filter (fun n => !(n.id == a.id)) :=
        List.filter_cons_of_pos (by simp [hne])
      rw [this]
      exact ((ih a ha' hnd').cons h).trans (List.Perm.swap a h _)

/-- Claim C6: deleting while no note is active (in particular when the
collection is empty) is a no-op; otherwise exactly the active note is
removed, and the pointer is reassigned to the remaining note with the
greatest `updatedAt`, the first such note in collection order, or to none
when nothing remains. -/
theorem handleDeleteNote_spec (s : AppState) :
    (activeNote s = none → handleDeleteNote s = s) ∧
    (∀ act, activeNote s = some act →
      (s.notes.map (fun n => n.id)).Nodup →
      (∀ n ∈ s.notes, n.id ≠ "") →
      ((handleDeleteNote s).notes = s.notes.filter (fun n => !(n.id == act.id)) ∧
       s.notes.Perm (act :: (handleDeleteNote s).notes) ∧
       ((handleDeleteNote s).notes = [] → (handleDeleteNote s).activeId = none) ∧
       ((handleDeleteNote s).notes ≠ [] → ∃ m l₁ l₂,
         (handleDeleteNote s).activeId = some m.id ∧
         (handleDeleteNote s).notes = l₁ ++ m :: l₂ ∧
         (∀ x ∈ l₁, x.updatedAt < m.updatedAt) ∧
         (∀ x ∈ (handleDeleteNote s).notes, x.updatedAt ≤ m.updatedAt)))) := by
  constructor
  · intro h
    simp [handleDeleteNote, h]
  · intro act hact hnd hids
    have hmem : act ∈ s.notes := by
      unfold activeNote at hact
      cases haid : s.activeId with
      | none => rw [haid] at hact; exact absurd hact (by simp)
      | some aid =>
        rw [haid] at hact
        exact List.mem_of_find?_eq_some hact
    have hnotes : (handleDeleteNote s).notes =
        s.notes.filter (fun n => !(n.id == act.id)) := by
      simp [handleDeleteNote, hact]
    refine ⟨hnotes, by rw [hnotes]; exact filter_ne_perm s.notes act hmem hnd, ?_, ?_⟩
    · intro hempty
      rw [hnotes] at hempty
      simp [handleDeleteNote, hact, hempty, jsStableSortByUpdatedDesc,
        List.insertionSort]
    · intro hne
      rw [hnotes] at hne
      obtain ⟨m, l₁, l₂, hh, hdec, hlt, hle⟩ :=
        sortDesc_head_leftmost_max (s.notes.filter (fun n => !(n.id == act.id))) hne
      have hmmem : m ∈ s.notes.filter (fun n => !(n.id == act.id)) := by
        rw [hdec]; simp
      have hmid : m.id ≠ "" := hids m (List.mem_of_mem_filter hmmem)
      refine ⟨m, l₁, l₂, ?_, by rw [hnotes]; exact hdec, hlt, ?_⟩
      · simp [handleDeleteNote, hact, hh, hmid]
      · intro x hx
        rw [hnotes] at hx
        exact hle x hx

/-- Claim C6, witness: spec example with X(updatedAt 5) active and
Y(updatedAt 9) remaining: deleting reassigns the pointer to Y. -/
theorem handleDeleteNote_spec_witness :
    (activeNote ⟨[exX, exY], some "x"⟩ = some exX ∧
     (([exX, exY] : List Note).map (fun n => n.id)).Nodup ∧
     (∀ n ∈ ([exX, exY] : List Note), n.id ≠ "")) ∧
    (handleDeleteNote ⟨[exX, exY], some "x"⟩).notes =
      ([exX, exY] : List Note).filter (fun n => !(n.id == exX.id)) ∧
    (handleDeleteNote ⟨[exX, exY], some "x"⟩).activeId = some "y" :=
  ⟨by decide,
   ((handleDeleteNote_spec ⟨[exX, exY], some "x"⟩).2 exX (by decide) (by decide)
      (by decide)).1,
   by decide⟩

/-! ### Claim C1: the markdown renderer -/

/-- `esc` acts character-wise: the three sequential global replacements
never rewrite a character produced by an earlier replacement. -/
theorem esc_cons (x : Char) (xs : List Char) : esc (x :: xs) = escChar x ++ esc xs := by
  by_cases h1 : x = '&'
  · subst h1; rfl
  by_cases h2 : x = '<'
  · subst h2; rfl
  by_cases h3 : x = '>'
  · subst h3; rfl
  simp [esc, replaceAllChar, escChar, h1, h2, h3]

/-- `esc` distributes over concatenation. -/
theorem esc_append (a b : List Char) : esc (a ++ b) = esc a ++ esc b := by
  induction a with
  | nil => rfl
  | cons x xs ih => simp [esc_cons, ih]

/-- The escaped text holds no literal `<` character: every `<` of the
input became `&lt;` and no replacement emits one. -/
theorem lt_not_mem_esc (l : List Char) : '<' ∉ esc l := by
  induction l with
  | nil => simp [esc, replaceAllChar]
  | cons x xs ih =>
    rw [esc_cons]
    intro hmem
    rcases List.mem_append.mp hmem with h | h
    · by_cases h1 : x = '&'
      · subst h1; simp [escChar] at h
      by_cases h2 : x = '<'
      · subst h2; simp [escChar] at h
      by_cases h3 : x = '>'
      · subst h3; simp [escChar] at h
      · simp [escChar, h1, h2, h3] at h
        exact h2 h.symm
    · exact ih h

/-- A contiguous substring of a concatenation lies in the left part, lies
in the right part, or splits over the seam. -/
theorem sub_append_cases {α : Type u} {p a b : List α} (h : p <:+: a ++ b) :
    p <:+: a ∨ p <:+: b ∨
      ∃ p₁ p₂, p = p₁ ++ p₂ ∧ p₁ ≠ [] ∧ p₂ ≠ [] ∧ p₁ <:+ a ∧ p₂ <+: b := by
  obtain ⟨s, t, hst⟩ := h
  rw [List.append_assoc] at hst
  rcases List.append_eq_append_iff.mp hst with ⟨a', ha1, ha2⟩ | ⟨c', hc1, hc2⟩
  · rcases List.append_eq_append_iff.mp ha2 with ⟨q, hq1, hq2⟩ | ⟨p₂, hp1, hp2⟩
    · refine Or.inl ⟨s, q, ?_⟩
      rw [ha1, hq1, List.append_assoc]
    · by_cases ha' : a' = []
      · subst ha'
        refine Or.inr (Or.inl ⟨[], t, ?_⟩)
        rw [List.nil_append] at hp1
        rw [hp2, ← hp1, List.nil_append]
      · by_cases hp2' : p₂ = []
        · subst hp2'
          refine Or.inl ⟨s, [], ?_⟩
          rw [List.append_nil] at hp1
          rw [ha1, ← hp1, List.append_nil]
        · exact Or.inr (Or.inr ⟨a', p₂, hp1, ha', hp2', ⟨s, ha1.symm⟩, ⟨t, hp2.symm⟩⟩)
  · refine Or.inr (Or.inl ⟨c', t, ?_⟩)
    rw [hc2, List.append_assoc]

/-- Short lists hold no three-character substring. -/
theorem noLtSc_short {l : List Char} (h : l.length < 3) : noLtSc l := by
  intro hsub
  have := hsub.length_le
  simp at this
  omega

/-- A list without `<` holds no `<sc`. -/
theorem noLtSc_of_not_mem {l : List Char} (h : '<' ∉ l) : noLtSc l := by
  intro hsub
  obtain ⟨s, t, hst⟩ := hsub
  exact h (by rw [← hst]; simp)

/-- `noLtSc` is inherited by contiguous substrings. -/
theorem noLtSc_of_sub {a b : List Char} (hab : a <:+: b) (hb : noLtSc b) : noLtSc a :=
  fun h => hb (h.trans hab)

/-- Gluing lemma: concatenation preserves `noLtSc` when no occurrence can
straddle the seam. -/
theorem noLtSc_append {a b : List Char} (ha : noLtSc a) (hb : noLtSc b)
    (h1 : ('<' :: []) <:+ a → ¬ (('s' :: 'c' :: []) <+: b))
    (h2 : ('<' :: 's' :: []) <:+ a → ¬ (('c' :: []) <+: b)) :
    noLtSc (a ++ b) := by
  intro hsub
  rcases sub_append_cases hsub with h | h | ⟨p₁, p₂, hp, hne1, hne2, hsuf, hpre⟩
  · exact ha h
  · exact hb h
  · rcases p₁ with _ | ⟨x1, p₁⟩
    · exact hne1 rfl
    rcases p₁ with _ | ⟨x2, p₁⟩
    · -- p₁ = [x1], p₂ = ['s', 'c']
      simp only [List.cons_append, List.nil_append, List.cons.injEq] at hp
      obtain ⟨hx1, hp₂⟩ := hp
      subst hx1
      rw [← hp₂] at hpre
      exact h1 hsuf hpre
    rcases p₁ with _ | ⟨x3, p₁⟩
    · -- p₁ = [x1, x2], p₂ = ['c']
      simp only [List.cons_append, List.nil_append, List.cons.injEq] at hp
      obtain ⟨hx1, hx2, hp₂⟩ := hp
      subst hx1
      subst hx2
      rw [← hp₂] at hpre
      exact h2 hsuf hpre
    · -- p₁ has three or more characters, p₂ nonempty: impossible
      have hlen := congrArg List.length hp
      simp only [List.length_cons, List.length_append, List.length_nil] at hlen
      have : p₂.length = 0 := by omega
      exact hne2 (List.eq_nil_of_length_eq_zero this)

/-- Concatenation preserves `noLtSc` when the left part ends in neither
`<` nor `<s`. -/
theorem noLtSc_append_safeL {a b : List Char} (hsf1 : ¬ (('<' :: []) <:+ a))
    (hsf2 : ¬ (('<' :: 's' :: []) <:+ a)) (ha : noLtSc a) (hb : noLtSc b) :
    noLtSc (a ++ b) :=
  noLtSc_append ha hb (fun h => absurd h hsf1) (fun h => absurd h hsf2)

/-- Concatenation preserves `noLtSc` when the right part starts with a
character other than `s` and `c` (or is empty). -/
theorem noLtSc_append_headSafe {a b : List Char}
    (hhead : ∀ x t, b = x :: t → x ≠ 's' ∧ x ≠ 'c')
    (ha : noLtSc a) (hb : noLtSc b) : noLtSc (a ++ b) := by
  refine noLtSc_append ha hb ?_ ?_
  · intro _ hpre
    obtain ⟨t, ht⟩ := hpre
    exact (hhead 's' _ ht.symm).1 rfl
  · intro _ hpre
    obtain ⟨t, ht⟩ := hpre
    exact (hhead 'c' _ ht.symm).2 rfl

/-- A successful lazy close decomposes the text as capture, delimiter,
remainder, with a nonempty capture. -/
theorem findClose_decomp (d : List Char) :
    ∀ l cap after, findClose d l = some (cap, after) →
      l = cap ++ d ++ after ∧ cap ≠ [] := by
  intro l
  induction l with
  | nil =>
    intro cap after h
    exact absurd h (by simp [findClose])
  | cons c rest ih =>
    intro cap after h
    simp only [findClose] at h
    by_cases h1 : notLineTerm c
    · rw [if_pos h1] at h
      by_cases h2 : d.isPrefixOf rest
      · rw [if_pos h2] at h
        obtain ⟨u, hu⟩ := List.isPrefixOf_iff_prefix.mp h2
        simp only [Option.some.injEq, Prod.mk.injEq] at h
        obtain ⟨hcap, hafter⟩ := h
        subst hcap
        constructor
        · have hdrop : rest.drop d.length = u := by rw [← hu, List.drop_left]
          rw [← hafter, hdrop, ← hu]
          simp
        · simp
      · rw [if_neg h2] at h
        cases hfc : findClose d rest with
        | none => rw [hfc] at h; exact absurd h (by simp)
        | some pr =>
          obtain ⟨cap', after'⟩ := pr
          rw [hfc] at h
          simp only [Option.some.injEq, Prod.mk.injEq] at h
          obtain ⟨hcap, hafter⟩ := h
          obtain ⟨hdec, _⟩ := ih cap' after' hfc
          subst hcap
          constructor
          · rw [← hafter, hdec]
            simp
          · simp
    · rw [if_neg h1] at h
      exact absurd h (by simp)

/-- A successful match at a position decomposes the text as delimiter,
capture, delimiter, remainder. -/
theorem matchAt_decomp {d l cap after : List Char} (h : matchAt d l = some (cap, after)) :
    l = d ++ cap ++ d ++ after ∧ cap ≠ [] := by
  unfold matchAt at h
  by_cases hp : d.isPrefixOf l
  · rw [if_pos hp] at h
    obtain ⟨u, hu⟩ := List.isPrefixOf_iff_prefix.mp hp
    have hdrop : l.drop d.length = u := by rw [← hu, List.drop_left]
    rw [hdrop] at h
    obtain ⟨hdec, hne⟩ := findClose_decomp d u cap after h
    refine ⟨?_, hne⟩
    rw [← hu, hdec]
    simp [List.append_assoc]
  · rw [if_neg hp] at h
    exact absurd h (by simp)

/-- The scan output either is empty, starts with the replacement `pre`, or
starts with the first input character followed by a (possibly exhausted)
scan of the remainder. -/
theorem scanRepl_head_cases (d pre post : List Char) :
    ∀ fuel l, scanRepl d pre post fuel l = [] ∨
      (∃ r, scanRepl d pre post fuel l = pre ++ r) ∨
      (∃ c l' r, l = c :: l' ∧ scanRepl d pre post fuel l = c :: r ∧
        (r = l' ∨ ∃ f', r = scanRepl d pre post f' l')) := by
  intro fuel l
  cases fuel with
  | zero =>
    cases l with
    | nil => exact Or.inl rfl
    | cons c l' => exact Or.inr (Or.inr ⟨c, l', l', rfl, rfl, Or.inl rfl⟩)
  | succ f =>
    cases l with
    | nil => exact Or.inl rfl
    | cons c l' =>
      cases hm : matchAt d (c :: l') with
      | some pr =>
        obtain ⟨cap, after⟩ := pr
        refine Or.inr (Or.inl ⟨cap ++ post ++ scanRepl d pre post f after, ?_⟩)
        simp [scanRepl, hm, List.append_assoc]
      | none =>
        exact Or.inr (Or.inr ⟨c, l', scanRepl d pre post f l', rfl,
          by simp [scanRepl, hm], Or.inr ⟨f, rfl⟩⟩)

/-- The key safety invariant of the inline passes: when the replacement
fragments start with `<`, hold no `<sc`, and end in neither `<` nor `<s`,
the scan of a `<sc`-free text is `<sc`-free.  (The capture is copied
verbatim from the input and both seams are guarded by the fragments'
shapes.) -/
theorem scanRepl_noLtSc (d pre post : List Char)
    (hpre_ne : ∃ pr, pre = '<' :: pr)
    (hpre_no : noLtSc pre)
    (hpre_s1 : ¬ (('<' :: []) <:+ pre))
    (hpre_s2 : ¬ (('<' :: 's' :: []) <:+ pre))
    (hpost_ne : ∃ pt, post = '<' :: pt)
    (hpost_no : noLtSc post)
    (hpost_s1 : ¬ (('<' :: []) <:+ post))
    (hpost_s2 : ¬ (('<' :: 's' :: []) <:+ post)) :
    ∀ fuel l, noLtSc l → noLtSc (scanRepl d pre post fuel l) := by
  intro fuel
  induction fuel with
  | zero => intro l hl; exact hl
  | succ f ih =>
    intro l hl
    cases l with
    | nil =>
      have hnil : scanRepl d pre post (f + 1) [] = [] := rfl
      rw [hnil]
      exact noLtSc_short (by simp)
    | cons c rest =>
      cases hm : matchAt d (c :: rest) with
      | some pr =>
        obtain ⟨cap, after⟩ := pr
        have hsc : scanRepl d pre post (f + 1) (c :: rest) =
            pre ++ (cap ++ (post ++ scanRepl d pre post f after)) := by
          simp [scanRepl, hm, List.append_assoc]
        rw [hsc]
        obtain ⟨hdec, _⟩ := matchAt_decomp hm
        have hcap_no : noLtSc cap := by
          refine noLtSc_of_sub ⟨d, d ++ after, ?_⟩ hl
          rw [hdec]
          simp [List.append_assoc]
        have hafter_no : noLtSc after := by
          refine noLtSc_of_sub ⟨d ++ cap ++ d, [], ?_⟩ hl
          rw [hdec]
          simp [List.append_assoc]
        have h3 : noLtSc (post ++ scanRepl d pre post f after) :=
          noLtSc_append_safeL hpost_s1 hpost_s2 hpost_no (ih after hafter_no)
        have h2 : noLtSc (cap ++ (post ++ scanRepl d pre post f after)) := by
          refine noLtSc_append_headSafe ?_ hcap_no h3
          intro x t hx
          obtain ⟨pt, hpt⟩ := hpost_ne
          rw [hpt, List.cons_append] at hx
          have hx' : '<' = x := by injection hx
          constructor <;> (rw [← hx']; decide)
        exact noLtSc_append_safeL hpre_s1 hpre_s2 hpre_no h2
      | none =>
        have hsc : scanRepl d pre post (f + 1) (c :: rest) =
            [c] ++ scanRepl d pre post f rest := by
          simp [scanRepl, hm]
        rw [hsc]
        have hrest_no : noLtSc rest := noLtSc_of_sub ⟨[c], [], by simp⟩ hl
        have hscan_no : noLtSc (scanRepl d pre post f rest) := ih rest hrest_no
        refine noLtSc_append (noLtSc_short (by simp)) hscan_no ?_ ?_
        · intro hsuf hpre2
          have hc : c = '<' := by
            obtain ⟨u, hu⟩ := hsuf
            cases u with
            | nil =>
              have : '<' = c := by simpa using hu
              exact this.symm
            | cons y ys =>
              have := congrArg List.length hu
              simp at this
          subst hc
          obtain ⟨t2, ht2⟩ := hpre2
          rcases scanRepl_head_cases d pre post f rest with h0 | ⟨r, hr⟩ |
            ⟨c₂, l', r, hrest, hscan2, hr⟩
          · rw [h0] at ht2
            simp at ht2
          · rw [hr] at ht2
            obtain ⟨pr2, hpr2⟩ := hpre_ne
            rw [hpr2] at ht2
            simp at ht2
          · rw [hscan2] at ht2
            have ht2' : ('s' :: 'c' :: t2) = c₂ :: r := by simpa using ht2
            rw [List.cons.injEq] at ht2'
            obtain ⟨hc₂, hrt⟩ := ht2'
            rcases hr with hr | ⟨f', hr⟩
            · have hl'eq : 'c' :: t2 = l' := hrt.trans hr
              refine hl ⟨[], t2, ?_⟩
              rw [hrest, ← hc₂, ← hl'eq]
              simp
            · rw [hr] at hrt
              rcases scanRepl_head_cases d pre post f' l' with h0' | ⟨r₂, hr₂⟩ |
                ⟨c₃, l'', r₃, hl'eq, hscan3, _⟩
              · rw [h0'] at hrt
                simp at hrt
              · rw [hr₂] at hrt
                obtain ⟨pr2, hpr2⟩ := hpre_ne
                rw [hpr2] at hrt
                simp at hrt
              · rw [hscan3] at hrt
                have hc₃ : 'c' = c₃ := by injection hrt
                refine hl ⟨[], l'', ?_⟩
                rw [hrest, hl'eq, ← hc₂, ← hc₃]
                simp
        · intro hsuf _
          obtain ⟨u, hu⟩ := hsuf
          have := congrArg List.length hu
          simp at this

/-- All three inline passes preserve `<sc`-freeness: their replacement
fragments `<strong>`, `</strong>`, `<em>`, `</em>`, `<code>`, `</code>`
satisfy the seam conditions. -/
theorem inlineSubst_noLtSc (l : List Char) (h : noLtSc l) : noLtSc (inlineSubst l) := by
  unfold inlineSubst jsReplaceAll
  apply scanRepl_noLtSc _ _ _ ⟨_, rfl⟩ (by decide) (by decide) (by decide)
    ⟨_, rfl⟩ (by decide) (by decide) (by decide)
  apply scanRepl_noLtSc _ _ _ ⟨_, rfl⟩ (by decide) (by decide) (by decide)
    ⟨_, rfl⟩ (by decide) (by decide) (by decide)
  apply scanRepl_noLtSc _ _ _ ⟨_, rfl⟩ (by decide) (by decide) (by decide)
    ⟨_, rfl⟩ (by decide) (by decide) (by decide)
  exact h

/-- Wrapping a `<sc`-free body in a pair of markup tags keeps it
`<sc`-free. -/
theorem noLtSc_wrap (tagL tagR inner : List Char)
    (hL_no : noLtSc tagL) (hL1 : ¬ (('<' :: []) <:+ tagL))
    (hL2 : ¬ (('<' :: 's' :: []) <:+ tagL))
    (hR : ∃ t, tagR = '<' :: t) (hR_no : noLtSc tagR)
    (hinner : noLtSc inner) :
    noLtSc (tagL ++ inner ++ tagR) := by
  apply noLtSc_append_headSafe
  · intro x t hx
    obtain ⟨tr, htr⟩ := hR
    rw [htr] at hx
    have hx' : '<' = x := by injection hx
    constructor <;> (rw [← hx']; decide)
  · exact noLtSc_append_safeL hL1 hL2 hL_no hinner
  · exact hR_no

/-- Every rendered line is `<sc`-free: heading and paragraph bodies are
escaped (no `<` at all) and the inline passes only insert safe tags. -/
theorem renderLine_noLtSc (line : List Char) : noLtSc (renderLine line) := by
  unfold renderLine
  by_cases h3 : startsHash 3 line = true
  · rw [if_pos h3]
    exact noLtSc_wrap _ _ _ (by decide) (by decide) (by decide) ⟨_, rfl⟩ (by decide)
      (noLtSc_of_not_mem (lt_not_mem_esc _))
  rw [if_neg h3]
  by_cases h2 : startsHash 2 line = true
  · rw [if_pos h2]
    exact noLtSc_wrap _ _ _ (by decide) (by decide) (by decide) ⟨_, rfl⟩ (by decide)
      (noLtSc_of_not_mem (lt_not_mem_esc _))
  rw [if_neg h2]
  by_cases h1 : startsHash 1 line = true
  · rw [if_pos h1]
    exact noLtSc_wrap _ _ _ (by decide) (by decide) (by decide) ⟨_, rfl⟩ (by decide)
      (noLtSc_of_not_mem (lt_not_mem_esc _))
  rw [if_neg h1]
  by_cases hb : (esc line).all isJsSpace = true
  · rw [if_pos hb]
    decide
  rw [if_neg hb]
  exact noLtSc_wrap _ _ _ (by decide) (by decide) (by decide) ⟨_, rfl⟩ (by decide)
    (inlineSubst_noLtSc _ (noLtSc_of_not_mem (lt_not_mem_esc _)))

/-- Joining `<sc`-free lines with newlines stays `<sc`-free: the newline
seam can complete no occurrence. -/
theorem joinNL_noLtSc : ∀ outs : List (List Char),
    (∀ x ∈ outs, noLtSc x) → noLtSc (joinNL outs) := by
  intro outs
  induction outs with
  | nil => intro _; exact noLtSc_short (by simp [joinNL])
  | cons x xs ih =>
    intro hall
    cases xs with
    | nil => exact hall x (by simp)
    | cons y ys =>
      have hrec : noLtSc (joinNL (y :: ys)) :=
        ih fun z hz => hall z (by simp [hz])
      have hx : noLtSc x := hall x (by simp)
      show noLtSc (x ++ ('\n' :: joinNL (y :: ys)))
      apply noLtSc_append_headSafe
      · intro c t hct
        have hc : '\n' = c := by injection hct
        constructor <;> (rw [← hc]; decide)
      · exact hx
      · show noLtSc (('\n' :: []) ++ joinNL (y :: ys))
        exact noLtSc_append_safeL (by decide) (by decide) (noLtSc_short (by simp)) hrec

/-- The full renderer output is `<sc`-free for every input. -/
theorem renderBasicMarkdown_noLtSc (text : List Char) :
    noLtSc (renderBasicMarkdown text) := by
  unfold renderBasicMarkdown
  apply joinNL_noLtSc
  intro x hx
  obtain ⟨line, _, rfl⟩ := List.mem_map.mp hx
  exact renderLine_noLtSc line

/-- `dropWhile` of the whitespace class commutes with escaping: whitespace
is untouched by `esc` and the escape of a non-space starts with a
non-space. -/
theorem dropWhile_isJsSpace_esc (l : List Char) :
    (esc l).dropWhile isJsSpace = esc (l.dropWhile isJsSpace) := by
  induction l with
  | nil => rfl
  | cons x xs ih =>
    rw [esc_cons]
    by_cases hsp : isJsSpace x = true
    · have hx : escChar x = [x] := by
        have h1 : x ≠ '&' := fun h => by rw [h] at hsp; exact absurd hsp (by decide)
        have h2 : x ≠ '<' := fun h => by rw [h] at hsp; exact absurd hsp (by decide)
        have h3 : x ≠ '>' := fun h => by rw [h] at hsp; exact absurd hsp (by decide)
        simp [escChar, h1, h2, h3]
      rw [hx]
      simp only [List.cons_append, List.nil_append]
      rw [List.dropWhile_cons_of_pos hsp, List.dropWhile_cons_of_pos hsp, ih]
    · by_cases h1 : x = '&'
      · subst h1
        rw [show escChar '&' = '&' :: ("amp;".data) from rfl]
        simp only [List.cons_append]
        rw [List.dropWhile_cons_of_neg (by decide), List.dropWhile_cons_of_neg hsp,
          esc_cons]
        rfl
      by_cases h2 : x = '<'
      · subst h2
        rw [show escChar '<' = '&' :: ("lt;".data) from rfl]
        simp only [List.cons_append]
        rw [List.dropWhile_cons_of_neg (by decide), List.dropWhile_cons_of_neg hsp,
          esc_cons]
        rfl
      by_cases h3 : x = '>'
      · subst h3
        rw [show escChar '>' = '&' :: ("gt;".data) from rfl]
        simp only [List.cons_append]
        rw [List.dropWhile_cons_of_neg (by decide), List.dropWhile_cons_of_neg hsp,
          esc_cons]
        rfl
      · rw [show escChar x = [x] from by simp [escChar, h1, h2, h3]]
        simp only [List.cons_append, List.nil_append]
        rw [List.dropWhile_cons_of_neg hsp, List.dropWhile_cons_of_neg hsp, esc_cons]
        rw [show escChar x = [x] from by simp [escChar, h1, h2, h3]]
        rfl

/-- Escaping fixes a run of `#` characters. -/
theorem esc_replicate_hash (k : Nat) :
    esc (List.replicate k '#') = List.replicate k '#' := by
  induction k with
  | zero => rfl
  | succ n ih =>
    rw [List.replicate_succ, esc_cons, ih]
    rfl

/-- Pushing one `#` through the heading test. -/
theorem startsHash_succ_cons_hash (n : Nat) (A : List Char) :
    startsHash (n + 1) ('#' :: A) = startsHash n A := by
  simp [startsHash, List.replicate_succ, List.isPrefixOf]

/-- A line not starting with `#` fails the heading test. -/
theorem startsHash_succ_not_hash (n : Nat) (c : Char) (h : c ≠ '#') (A : List Char) :
    startsHash (n + 1) (c :: A) = false := by
  have hbeq : ('#' == c) = false := beq_eq_false_iff_ne.mpr (Ne.symm h)
  simp [startsHash, List.replicate_succ, List.isPrefixOf, hbeq]

/-- The heading test is insensitive to escaping: `esc` fixes `#` and
whitespace and maps no character to one starting with `#` or whitespace. -/
theorem startsHash_esc (k : Nat) (l : List Char) :
    startsHash k (esc l) = startsHash k l := by
  induction k generalizing l with
  | zero =>
    cases l with
    | nil => rfl
    | cons x xs =>
      rw [esc_cons]
      by_cases h1 : x = '&'
      · subst h1; rfl
      by_cases h2 : x = '<'
      · subst h2; rfl
      by_cases h3 : x = '>'
      · subst h3; rfl
      · rw [show escChar x = [x] from by simp [escChar, h1, h2, h3]]
        rfl
  | succ n ih =>
    cases l with
    | nil => rfl
    | cons x xs =>
      rw [esc_cons]
      by_cases hx : x = '#'
      · subst hx
        rw [show escChar '#' = ['#'] from rfl]
        show startsHash (n + 1) ('#' :: esc xs) = startsHash (n + 1) ('#' :: xs)
        rw [startsHash_succ_cons_hash, startsHash_succ_cons_hash]
        exact ih xs
      · have hR : startsHash (n + 1) (x :: xs) = false :=
          startsHash_succ_not_hash n x hx xs
        have hL : startsHash (n + 1) (escChar x ++ esc xs) = false := by
          by_cases h1 : x = '&'
          · subst h1
            exact startsHash_succ_not_hash n '&' (by decide) _
          by_cases h2 : x = '<'
          · subst h2
            exact startsHash_succ_not_hash n '&' (by decide) _
          by_cases h3 : x = '>'
          · subst h3
            exact startsHash_succ_not_hash n '&' (by decide) _
          · rw [show escChar x = [x] from by simp [escChar, h1, h2, h3]]
            exact startsHash_succ_not_hash n x hx _
        rw [hL, hR]

/-- Stripping a heading prefix commutes with escaping on heading lines. -/
theorem stripHash_esc (k : Nat) (l : List Char) (hk : startsHash k l = true) :
    stripHash k (esc l) = esc (stripHash k l) := by
  have hpre : (List.replicate k '#').isPrefixOf l = true := by
    simp only [startsHash, Bool.and_eq_true] at hk
    exact hk.1
  obtain ⟨rest, hrest⟩ := List.isPrefixOf_iff_prefix.mp hpre
  unfold stripHash
  have hlen : (List.replicate k '#').length = k := List.length_replicate k '#'
  rw [← hrest, esc_append, esc_replicate_hash]
  rw [List.drop_left' hlen, List.drop_left' hlen]
  exact dropWhile_isJsSpace_esc rest

/-- Each line renders exactly as the spec's escape-first pipeline: heading
detection and stripping commute with the escaping that the code interleaves
with them. -/
theorem renderLine_eq_specOrder (line : List Char) :
    renderLine line = renderLineSpecOrder line := by
  simp only [renderLine, renderLineSpecOrder]
  rw [startsHash_esc 3, startsHash_esc 2, startsHash_esc 1]
  by_cases h3 : startsHash 3 line = true
  · rw [if_pos h3, if_pos h3, stripHash_esc 3 line h3]
  rw [if_neg h3, if_neg h3]
  by_cases h2 : startsHash 2 line = true
  · rw [if_pos h2, if_pos h2, stripHash_esc 2 line h2]
  rw [if_neg h2, if_neg h2]
  by_cases h1 : startsHash 1 line = true
  · rw [if_pos h1, if_pos h1, stripHash_esc 1 line h1]
  rw [if_neg h1, if_neg h1]

/-- Claim C1: the renderer escapes `&`, `<`, `>` before any pattern
substitution takes effect — each line renders exactly as the escape-first
pipeline prescribes (the code's strip-then-escape heading path is
extensionally the same); consequently no input can inject a literal
`<script>` substring into the output; and the spec's concrete examples
render as stated: `<script>` is escaped inside a paragraph, and
`**a** *b* (backtick) c` yields bold, italic and code inside one
paragraph wrapper. -/
theorem renderBasicMarkdown_safe :
    (∀ s : String, ¬ (("<script>".data) <:+: (renderString s).data)) ∧
    (∀ line, renderLine line = renderLineSpecOrder line) ∧
    renderString "<script>" = "<p>&lt;script&gt;</p>" ∧
    renderString "**a** *b* `c`" =
      "<p><strong>a</strong> <em>b</em> <code>c</code></p>" := by
  refine ⟨?_, renderLine_eq_specOrder, by decide, by decide⟩
  intro s hsub
  have hsc : ('<' :: 's' :: 'c' :: []) <:+: ("<script>".data) := by decide
  exact renderBasicMarkdown_noLtSc s.data (hsc.trans hsub)

end NotesApp
